import Mathlib

/-!
Verification of the reservoir-sampling library (Vitter's Algorithm R).

The library exposes two entry points:

* `sample(rng, sample_size, iter)` — allocate a fresh buffer and fill it
  with a reservoir sample of the iterator;
* `sample_into(samples, rng, sample_size, iter)` — run the same loop
  appending to / overwriting within an existing buffer.

The loop body (`sample_into` in `lib.rs`) is, per element:

    count += 1;
    if count <= sample_size { samples.push(element); }
    else {
        let index = rng.gen_range(0, count);
        if index < sample_size { samples[original_length + index] = element; }
    }

We embed the loop as a fold over the (finite) source list.  The random
source `rng.gen_range(0, count)` is modelled as a function
`rng : Nat → Nat → Nat` taking the number of previous invocations (the
rng is stateful in Rust) and the exclusive upper bound `count`, and
returning the drawn value.  The loop state records the buffer, the
element count, and the number of rng invocations so far.
-/

namespace Reservoir

universe u

variable {α : Type u}

/-- The state threaded through the sampling loop of `sample_into`:
the buffer, the number of source elements consumed (`count` in the Rust
code), and the number of times the random source has been invoked. -/
structure LoopState (α : Type u) where
  samples : List α
  count : Nat
  calls : Nat
  deriving Repr, DecidableEq

/-- The body of the `for element in iter` loop of `sample_into`.
`sample_size` and `original_length` are the identically named Rust
variables; `rng cl c` models `rng.gen_range(0, c)` when the random
source has already been invoked `cl` times. -/
def sampleStep (rng : Nat → Nat → Nat) (sample_size original_length : Nat)
    (st : LoopState α) (element : α) : LoopState α :=
  let count := st.count + 1
  if count ≤ sample_size then
    { st with samples := st.samples ++ [element], count := count }
  else
    let index := rng st.calls count
    if index < sample_size then
      { samples := st.samples.set (original_length + index) element,
        count := count, calls := st.calls + 1 }
    else
      { st with count := count, calls := st.calls + 1 }

/-- `sample_into(samples, rng, sample_size, iter)`: run the loop over the
whole source starting from the caller's buffer, with `original_length =
samples.len()` captured at entry and `count = 0`. -/
def sample_into (samples : List α) (rng : Nat → Nat → Nat) (sample_size : Nat)
    (iter : List α) : LoopState α :=
  iter.foldl (sampleStep rng sample_size samples.length) ⟨samples, 0, 0⟩

/-- `sample(rng, sample_size, iter)`: allocate a fresh (empty) buffer,
run `sample_into` on it, and return the buffer. -/
def sample (rng : Nat → Nat → Nat) (sample_size : Nat) (iter : List α) :
    List α := (sample_into [] rng sample_size iter).samples

/-- Taking a prefix strictly below a written index is unaffected by the
write. -/
theorem take_set_of_le (l : List α) (m i : Nat) (x : α) (h : m ≤ i) :
    (l.set i x).take m = l.take m := by
  induction l generalizing m i with
  | nil => simp
  | cons a l ih =>
    cases i with
    | zero =>
      cases m with
      | zero => simp
      | succ m => omega
    | succ i =>
      cases m with
      | zero => simp
      | succ m =>
        simp only [List.set, List.take_succ_cons, List.cons.injEq, true_and]
        exact ih m i (by omega)

/-- Writing at an offset `≥` the length of the left part of an append
acts on the right part. -/
theorem set_append_offset (B : List α) (s : List α) (i : Nat) (x : α) :
    (B ++ s).set (B.length + i) x = B ++ s.set i x := by
  induction B with
  | nil => simp
  | cons b B ih => simp [List.set, Nat.succ_add, ih]

/-- Master invariant of the sampling loop, by induction over the
remaining source.  Starting from any state whose buffer length is
`original_length + min sample_size count`, after folding the remaining
`iter`:
* `count` grows by `iter.length`;
* the buffer length is `original_length + min sample_size count`;
* the rng has been invoked once per element whose (new) count exceeded
  `sample_size`;
* the first `original_length` buffer entries are untouched;
* every buffer entry comes from the starting buffer or from the source. -/
theorem foldl_sampleStep_master (rng : Nat → Nat → Nat) (k L : Nat)
    (iter : List α) :
    ∀ (s : List α) (c cl : Nat), s.length = L + min k c →
      (List.foldl (sampleStep rng k L) ⟨s, c, cl⟩ iter).count
          = c + iter.length ∧
      (List.foldl (sampleStep rng k L) ⟨s, c, cl⟩ iter).samples.length
          = L + min k (c + iter.length) ∧
      (List.foldl (sampleStep rng k L) ⟨s, c, cl⟩ iter).calls
          = cl + ((c + iter.length) - max c k) ∧
      (List.foldl (sampleStep rng k L) ⟨s, c, cl⟩ iter).samples.take L
          = s.take L ∧
      ∀ x ∈ (List.foldl (sampleStep rng k L) ⟨s, c, cl⟩ iter).samples,
        x ∈ s ∨ x ∈ iter := by
  induction iter with
  | nil => intro s c cl hlen; simp [hlen]
  | cons e iter ih =>
    intro s c cl hlen
    simp only [List.foldl_cons]
    by_cases hfill : c + 1 ≤ k
    · have hstep : sampleStep rng k L ⟨s, c, cl⟩ e
          = ⟨s ++ [e], c + 1, cl⟩ := by
        simp [sampleStep, hfill]
      have hlen1 : (s ++ [e]).length = L + min k (c + 1) := by
        simp [hlen]; omega
      obtain ⟨h1, h2, h3, h4, h5⟩ := ih (s ++ [e]) (c + 1) cl hlen1
      rw [hstep]
      refine ⟨by rw [h1, List.length_cons]; omega,
        by rw [h2, List.length_cons]; omega,
        by rw [h3, List.length_cons]; omega, ?_, ?_⟩
      · rw [h4, List.take_append_of_le_length]
        have : L ≤ s.length := by omega
        exact this
      · intro x hx
        rcases h5 x hx with hx1 | hx1
        · rcases List.mem_append.mp hx1 with hx2 | hx2
          · exact Or.inl hx2
          · simp at hx2; simp [hx2]
        · simp [hx1]
    · have hmink : min k c = k := by omega
      by_cases hidx : rng cl (c + 1) < k
      · have hstep : sampleStep rng k L ⟨s, c, cl⟩ e
            = ⟨s.set (L + rng cl (c + 1)) e, c + 1, cl + 1⟩ := by
          simp [sampleStep, hfill, hidx]
        have hlen1 : (s.set (L + rng cl (c + 1)) e).length
            = L + min k (c + 1) := by
          simp [hlen]; omega
        obtain ⟨h1, h2, h3, h4, h5⟩ :=
          ih (s.set (L + rng cl (c + 1)) e) (c + 1) (cl + 1) hlen1
        rw [hstep]
        refine ⟨by rw [h1, List.length_cons]; omega,
          by rw [h2, List.length_cons]; omega,
          by rw [h3, List.length_cons]; omega, ?_, ?_⟩
        · rw [h4, take_set_of_le s L (L + rng cl (c + 1)) e (by omega)]
        · intro x hx
          rcases h5 x hx with hx1 | hx1
          · rcases List.mem_or_eq_of_mem_set hx1 with hx2 | hx2
            · exact Or.inl hx2
            · simp [hx2]
          · simp [hx1]
      · have hstep : sampleStep rng k L ⟨s, c, cl⟩ e
            = ⟨s, c + 1, cl + 1⟩ := by
          simp [sampleStep, hfill, hidx]
        have hlen1 : s.length = L + min k (c + 1) := by rw [hlen]; omega
        obtain ⟨h1, h2, h3, h4, h5⟩ := ih s (c + 1) (cl + 1) hlen1
        rw [hstep]
        refine ⟨by rw [h1, List.length_cons]; omega,
          by rw [h2, List.length_cons]; omega,
          by rw [h3, List.length_cons]; omega, h4, ?_⟩
        intro x hx
        rcases h5 x hx with hx1 | hx1
        · exact Or.inl hx1
        · simp [hx1]

/-- The master invariant specialised to `sample_into`. -/
theorem sample_into_master (buf : List α) (rng : Nat → Nat → Nat)
    (k : Nat) (iter : List α) :
    (sample_into buf rng k iter).count = iter.length ∧
    (sample_into buf rng k iter).samples.length
        = buf.length + min k iter.length ∧
    (sample_into buf rng k iter).calls = iter.length - k ∧
    (sample_into buf rng k iter).samples.take buf.length = buf ∧
    ∀ x ∈ (sample_into buf rng k iter).samples, x ∈ buf ∨ x ∈ iter := by
  have h := foldl_sampleStep_master rng k buf.length iter buf 0 0 (by simp)
  obtain ⟨h1, h2, h3, h4, h5⟩ := h
  simp only [sample_into]
  refine ⟨by rw [h1]; omega, by rw [h2]; omega, by rw [h3]; omega, ?_, h5⟩
  rw [h4, List.take_length]

/-- While the count stays within `sample_size`, every element goes
through the unconditional fill branch: the fold just appends the source
in order and never draws from the rng. -/
theorem foldl_sampleStep_fill (rng : Nat → Nat → Nat) (k L : Nat)
    (iter : List α) :
    ∀ (s : List α) (c cl : Nat), c + iter.length ≤ k →
      List.foldl (sampleStep rng k L) ⟨s, c, cl⟩ iter
        = ⟨s ++ iter, c + iter.length, cl⟩ := by
  induction iter with
  | nil => intro s c cl _; simp
  | cons e iter ih =>
    intro s c cl hle
    rw [List.length_cons] at hle
    have hfill : c + 1 ≤ k := by omega
    have hstep : sampleStep rng k L ⟨s, c, cl⟩ e = ⟨s ++ [e], c + 1, cl⟩ := by
      simp [sampleStep, hfill]
    rw [List.foldl_cons, hstep, ih (s ++ [e]) (c + 1) cl (by omega)]
    simp
    omega

/-- The loop on a buffer `B ++ s` with `original_length = B.length`
behaves exactly like the loop on `s` with `original_length = 0`, with
`B` riding along in front: the in-place algorithm is the offset-0
algorithm shifted by the untouched prefix. -/
theorem foldl_sampleStep_offset (rng : Nat → Nat → Nat) (k : Nat)
    (B : List α) (iter : List α) :
    ∀ (s : List α) (c cl : Nat),
      List.foldl (sampleStep rng k B.length) ⟨B ++ s, c, cl⟩ iter
        = ⟨B ++ (List.foldl (sampleStep rng k 0) ⟨s, c, cl⟩ iter).samples,
           (List.foldl (sampleStep rng k 0) ⟨s, c, cl⟩ iter).count,
           (List.foldl (sampleStep rng k 0) ⟨s, c, cl⟩ iter).calls⟩ := by
  induction iter with
  | nil => intro s c cl; simp
  | cons e iter ih =>
    intro s c cl
    rw [List.foldl_cons, List.foldl_cons]
    by_cases hfill : c + 1 ≤ k
    · have h1 : sampleStep rng k B.length ⟨B ++ s, c, cl⟩ e
          = ⟨B ++ (s ++ [e]), c + 1, cl⟩ := by
        simp [sampleStep, hfill]
      have h2 : sampleStep rng k 0 ⟨s, c, cl⟩ e = ⟨s ++ [e], c + 1, cl⟩ := by
        simp [sampleStep, hfill]
      rw [h1, h2, ih]
    · by_cases hidx : rng cl (c + 1) < k
      · have h1 : sampleStep rng k B.length ⟨B ++ s, c, cl⟩ e
            = ⟨B ++ s.set (rng cl (c + 1)) e, c + 1, cl + 1⟩ := by
          simp only [sampleStep, hfill, if_false, hidx, if_true]
          rw [set_append_offset]
        have h2 : sampleStep rng k 0 ⟨s, c, cl⟩ e
            = ⟨s.set (rng cl (c + 1)) e, c + 1, cl + 1⟩ := by
          simp [sampleStep, hfill, hidx]
        rw [h1, h2, ih]
      · have h1 : sampleStep rng k B.length ⟨B ++ s, c, cl⟩ e
            = ⟨B ++ s, c + 1, cl + 1⟩ := by
          simp [sampleStep, hfill, hidx]
        have h2 : sampleStep rng k 0 ⟨s, c, cl⟩ e = ⟨s, c + 1, cl + 1⟩ := by
          simp [sampleStep, hfill, hidx]
        rw [h1, h2, ih]

/-- `sample_into` leaves the caller's buffer in front and appends
exactly what `sample` would produce from an empty buffer; count and rng
usage agree as well. -/
theorem sample_into_eq_append (buf : List α) (rng : Nat → Nat → Nat)
    (k : Nat) (iter : List α) :
    (sample_into buf rng k iter).samples = buf ++ sample rng k iter ∧
    (sample_into buf rng k iter).count
        = (sample_into [] rng k iter : LoopState α).count ∧
    (sample_into buf rng k iter).calls
        = (sample_into [] rng k iter : LoopState α).calls := by
  have h0 : sample_into buf rng k iter
      = ⟨buf ++ (sample_into [] rng k iter).samples,
         (sample_into [] rng k iter).count,
         (sample_into [] rng k iter).calls⟩ := by
    have h := foldl_sampleStep_offset rng k buf iter [] 0 0
    rw [List.append_nil] at h
    simpa [sample_into] using h
  rw [h0, sample]
  exact ⟨rfl, rfl, rfl⟩

/-- A degenerate random source that always draws 0: used to instantiate
universally quantified statements at a concrete input. -/
def rngZero : Nat → Nat → Nat := fun _ _ => 0

/-- A bounds-checked write: Rust's `samples[i] = element` panics when
`i` is out of bounds; `none` models the panic branch. -/
def setChecked (l : List α) (i : Nat) (x : α) : Option (List α) :=
  if i < l.length then some (l.set i x) else none

/-- The loop body of `sample_into` with the bounds check of the indexed
assignment `samples[original_length + index] = element` made explicit. -/
def sampleStepChecked (rng : Nat → Nat → Nat)
    (sample_size original_length : Nat) (st : Option (LoopState α))
    (element : α) : Option (LoopState α) :=
  match st with
  | none => none
  | some st =>
    let count := st.count + 1
    if count ≤ sample_size then
      some ⟨st.samples ++ [element], count, st.calls⟩
    else
      let index := rng st.calls count
      if index < sample_size then
        match setChecked st.samples (original_length + index) element with
        | none => none
        | some s => some ⟨s, count, st.calls + 1⟩
      else
        some ⟨st.samples, count, st.calls + 1⟩

/-- `sample_into` with every indexed write bounds-checked; `none` means
a write went out of bounds (a panic in the Rust code). -/
def sample_intoChecked (samples : List α) (rng : Nat → Nat → Nat)
    (sample_size : Nat) (iter : List α) : Option (LoopState α) :=
  iter.foldl (sampleStepChecked rng sample_size samples.length)
    (some ⟨samples, 0, 0⟩)

/-- As long as the buffer length is `original_length + min sample_size
count`, the checked loop never fails and agrees with the unchecked
loop. -/
theorem foldl_sampleStepChecked_eq (rng : Nat → Nat → Nat) (k L : Nat)
    (iter : List α) :
    ∀ (s : List α) (c cl : Nat), s.length = L + min k c →
      List.foldl (sampleStepChecked rng k L) (some ⟨s, c, cl⟩) iter
        = some (List.foldl (sampleStep rng k L) ⟨s, c, cl⟩ iter) := by
  induction iter with
  | nil => intro s c cl _; simp
  | cons e iter ih =>
    intro s c cl hlen
    rw [List.foldl_cons, List.foldl_cons]
    by_cases hfill : c + 1 ≤ k
    · have h1 : sampleStepChecked rng k L (some ⟨s, c, cl⟩) e
          = some ⟨s ++ [e], c + 1, cl⟩ := by
        simp [sampleStepChecked, hfill]
      have h2 : sampleStep rng k L ⟨s, c, cl⟩ e = ⟨s ++ [e], c + 1, cl⟩ := by
        simp [sampleStep, hfill]
      rw [h1, h2]
      exact ih (s ++ [e]) (c + 1) cl (by simp [hlen]; omega)
    · by_cases hidx : rng cl (c + 1) < k
      · have hin : L + rng cl (c + 1) < s.length := by
          rw [hlen]; omega
        have h1 : sampleStepChecked rng k L (some ⟨s, c, cl⟩) e
            = some ⟨s.set (L + rng cl (c + 1)) e, c + 1, cl + 1⟩ := by
          simp [sampleStepChecked, hfill, hidx, setChecked, hin]
        have h2 : sampleStep rng k L ⟨s, c, cl⟩ e
            = ⟨s.set (L + rng cl (c + 1)) e, c + 1, cl + 1⟩ := by
          simp [sampleStep, hfill, hidx]
        rw [h1, h2]
        exact ih (s.set (L + rng cl (c + 1)) e) (c + 1) (cl + 1)
          (by simp [hlen]; omega)
      · have h1 : sampleStepChecked rng k L (some ⟨s, c, cl⟩) e
            = some ⟨s, c + 1, cl + 1⟩ := by
          simp [sampleStepChecked, hfill, hidx]
        have h2 : sampleStep rng k L ⟨s, c, cl⟩ e = ⟨s, c + 1, cl + 1⟩ := by
          simp [sampleStep, hfill, hidx]
        rw [h1, h2]
        exact ih s (c + 1) (cl + 1) (by rw [hlen]; omega)

/-- C1.  Size law: for every random source, every `sample_size`, and
every finite source of length `n`, `sample` returns a collection of
length exactly `min sample_size n`. -/
theorem claim_C1_size_law (rng : Nat → Nat → Nat) (sample_size : Nat)
    (iter : List α) :
    (sample rng sample_size iter).length = min sample_size iter.length := by
  have h := (sample_into_master [] rng sample_size iter).2.1
  simpa [sample] using h

/-- C3 counterexample.  With `sample_size = 0` and source `0..10`, the
result is indeed empty, but the random source is invoked 10 times (once
per element, in the `count <= sample_size`-false branch), not zero
times: the claim that it is never invoked is false. -/
theorem claim_C3_counterexample :
    ¬ (sample rngZero 0 (List.range 10) = ([] : List Nat) ∧
       (sample_into ([] : List Nat) rngZero 0 (List.range 10)).calls = 0) := by
  decide

/-- C3 as amended.  With `sample_size = 0` the result is an empty
collection, but the random source is invoked once per source element
(`n` times, in accordance with the `max(0, n - sample_size)` call-count
law), since every element takes the random-draw branch. -/
theorem claim_C3_zero_sample_size (rng : Nat → Nat → Nat) (iter : List α) :
    sample rng 0 iter = [] ∧
    (sample_into ([] : List α) rng 0 iter).calls = iter.length := by
  constructor
  · have h := (sample_into_master [] rng 0 iter).2.1
    have hl : (sample rng 0 iter).length = 0 := by simpa [sample] using h
    exact List.length_eq_zero.mp hl
  · have h := (sample_into_master [] rng 0 iter).2.2.1
    simpa using h

/-- C4.  The random source is invoked exactly `max(0, n - sample_size)`
times for a source of length `n` (zero calls when `n ≤ sample_size`);
`sample` shares its call count with `sample_into` on an empty buffer. -/
theorem claim_C4_call_count (buf : List α) (rng : Nat → Nat → Nat)
    (sample_size : Nat) (iter : List α) :
    ((sample_into buf rng sample_size iter).calls : Int)
      = max 0 ((iter.length : Int) - (sample_size : Int)) := by
  have h := (sample_into_master buf rng sample_size iter).2.2.1
  rw [h]
  omega

/-- C5.  When the source is shorter than `sample_size`, every element
goes through the unconditional fill branch: `sample` returns exactly
the source in its original order, and `sample_into` appends exactly the
source after the pre-existing prefix. -/
theorem claim_C5_undersized_source (buf : List α) (rng : Nat → Nat → Nat)
    (sample_size : Nat) (iter : List α) (h : iter.length < sample_size) :
    sample rng sample_size iter = iter ∧
    (sample_into buf rng sample_size iter).samples = buf ++ iter := by
  constructor
  · have h0 := foldl_sampleStep_fill rng sample_size 0 iter [] 0 0 (by omega)
    simp [sample, sample_into, h0]
  · have h0 := foldl_sampleStep_fill rng sample_size buf.length iter buf 0 0
      (by omega)
    simp [sample_into, h0]

/-- C5 witness: source `0..10`, `sample_size = 20`. -/
theorem claim_C5_witness :
    sample rngZero 20 (List.range 10) = List.range 10 ∧
    (sample_into [5] rngZero 20 (List.range 10)).samples
      = [5] ++ List.range 10 :=
  claim_C5_undersized_source [5] rngZero 20 (List.range 10) (by decide)

/-- C6.  Frame property: the pre-existing prefix of the buffer is left
completely unmodified, in content and order, by `sample_into`. -/
theorem claim_C6_prefix_untouched (buf : List α) (rng : Nat → Nat → Nat)
    (sample_size : Nat) (iter : List α) :
    (sample_into buf rng sample_size iter).samples.take buf.length = buf :=
  (sample_into_master buf rng sample_size iter).2.2.2.1

/-- C7.  Element origin: every element of the result of `sample`, and
every element of the managed region written by `sample_into`, is a
value that appeared in the source sequence. -/
theorem claim_C7_element_origin (buf : List α) (rng : Nat → Nat → Nat)
    (sample_size : Nat) (iter : List α) :
    (∀ x ∈ sample rng sample_size iter, x ∈ iter) ∧
    (∀ x ∈ (sample_into buf rng sample_size iter).samples.drop buf.length,
      x ∈ iter) := by
  have hmain : ∀ x ∈ sample rng sample_size iter, x ∈ iter := by
    intro x hx
    have h := (sample_into_master [] rng sample_size iter).2.2.2.2 x
      (by simpa [sample] using hx)
    rcases h with h | h
    · cases h
    · exact h
  refine ⟨hmain, ?_⟩
  intro x hx
  apply hmain
  have happ := (sample_into_eq_append buf rng sample_size iter).1
  rw [happ, List.drop_left] at hx
  exact hx

/-- C7 witness: `1` lies in the sample of `0..10` drawn with the
all-zeros random source, hence in `0..10`. -/
theorem claim_C7_witness : (1 : Nat) ∈ List.range 10 :=
  (claim_C7_element_origin [] rngZero 4 (List.range 10)).1 1 (by decide)

/-- C8.  The managed region holds exactly `min sample_size count`
elements where `count` is the number of source elements consumed so
far: this is preserved by every single loop step, and consequently
holds after processing each prefix of the source (and at exit). -/
theorem claim_C8_region_size_invariant (buf : List α)
    (rng : Nat → Nat → Nat) (sample_size : Nat) (iter : List α) :
    (∀ (st : LoopState α) (e : α),
      st.samples.length = buf.length + min sample_size st.count →
        (sampleStep rng sample_size buf.length st e).samples.length
            = buf.length + min sample_size (st.count + 1) ∧
        (sampleStep rng sample_size buf.length st e).count
            = st.count + 1) ∧
    (∀ m, (sample_into buf rng sample_size (iter.take m)).samples.length
          = buf.length + min sample_size (min m iter.length) ∧
      (sample_into buf rng sample_size (iter.take m)).count
          = min m iter.length) := by
  constructor
  · intro st e hlen
    by_cases hfill : st.count + 1 ≤ sample_size
    · constructor
      · simp [sampleStep, hfill, hlen]
        omega
      · simp [sampleStep, hfill]
    · by_cases hidx : rng st.calls (st.count + 1) < sample_size
      · constructor
        · simp [sampleStep, hfill, hidx, hlen]
          omega
        · simp [sampleStep, hfill, hidx]
      · constructor
        · simp [sampleStep, hfill, hidx, hlen]
          omega
        · simp [sampleStep, hfill, hidx]
  · intro m
    have h := sample_into_master buf rng sample_size (iter.take m)
    refine ⟨?_, ?_⟩
    · rw [h.2.1, List.length_take]
    · rw [h.1, List.length_take]

/-- C8 witness: a concrete step (buffer `[7, 0]`, prefix length 1,
count 1) preserves the size invariant. -/
theorem claim_C8_witness :
    (sampleStep rngZero 3 1 (⟨[7, 0], 1, 0⟩ : LoopState Nat) 9).samples.length
        = 1 + min 3 (1 + 1) ∧
    (sampleStep rngZero 3 1 (⟨[7, 0], 1, 0⟩ : LoopState Nat) 9).count
        = 1 + 1 :=
  (claim_C8_region_size_invariant [7] rngZero 3 (List.range 5)).1
    ⟨[7, 0], 1, 0⟩ 9 (by decide)

/-- C9.  Refinement: `sample` returns exactly the contents of an
initially empty buffer after `sample_into`, and on any buffer the
in-place algorithm is the allocate-mode algorithm operating at offset
`buf.length`: the final buffer is the untouched prefix followed by
exactly what allocate mode produces. -/
theorem claim_C9_allocate_refines_in_place (buf : List α)
    (rng : Nat → Nat → Nat) (sample_size : Nat) (iter : List α) :
    sample rng sample_size iter
        = (sample_into [] rng sample_size iter).samples ∧
    (sample_into buf rng sample_size iter).samples
        = buf ++ sample rng sample_size iter :=
  ⟨rfl, (sample_into_eq_append buf rng sample_size iter).1⟩

/-- C10.  With the bounds check made explicit, the checked loop never
hits the out-of-bounds (panic) branch: whenever the overwrite branch is
reached the buffer already holds `original_length + sample_size`
elements and `index < sample_size` keeps the write in bounds.  This
holds for any random source meeting the range contract (the bound is
forced by the branch condition alone). -/
theorem claim_C10_write_in_bounds (buf : List α) (rng : Nat → Nat → Nat)
    (sample_size : Nat) (iter : List α)
    (_hrng : ∀ j c, 0 < c → rng j c < c) :
    sample_intoChecked buf rng sample_size iter
      = some (sample_into buf rng sample_size iter) := by
  have h := foldl_sampleStepChecked_eq rng sample_size buf.length iter
    buf 0 0 (by simp)
  simpa [sample_intoChecked, sample_into] using h

/-- C10 witness: concrete run with an in-range random source. -/
theorem claim_C10_witness :
    sample_intoChecked [9] rngZero 2 (List.range 5)
      = some (sample_into [9] rngZero 2 (List.range 5)) :=
  claim_C10_write_in_bounds [9] rngZero 2 (List.range 5)
    (fun _ _ hc => hc)

/-!
## Distribution of the reservoir (claim C2)

To quantify over the outputs of a random source that is uniform on each
requested range `[0, count)`, we enumerate the possible draw sequences.
Running `sample` with `sample_size = k` on the source `0, 1, ..., n-1`
invokes the rng once per count in `k+1, ..., n`, the draw at count `c`
lying in `[0, c)`.  `drawSpace k n` is the finite set of all such draw
sequences; the counting measure on it is exactly the law of the draws
when each one is uniform on its range.  `rngOfList ds` is the random
source replaying the fixed draw sequence `ds`.
-/

/-- A random source that replays a fixed list of draws: its `j`-th
invocation returns `ds[j]` (0 once the list is exhausted). -/
def rngOfList (ds : List Nat) : Nat → Nat → Nat := fun j _ => ds.getD j 0

/-- All draw sequences a run of Algorithm R with `sample_size = k` on a
source of length `n` can consume: one draw per count in `k+1, ..., n`,
the draw at count `c` ranging over `[0, c)`, listed in order. -/
def drawSpace (k : Nat) : Nat → Finset (List Nat)
  | 0 => {[]}
  | n + 1 =>
    if n + 1 ≤ k then {[]}
    else (drawSpace k n).biUnion
      (fun ds => (Finset.range (n + 1)).image (fun d => ds ++ [d]))

theorem drawSpace_of_le (k n : Nat) (h : n ≤ k) : drawSpace k n = {[]} := by
  cases n with
  | zero => rfl
  | succ n => rw [drawSpace, if_pos h]

theorem drawSpace_succ_of_lt (k n : Nat) (h : k ≤ n) :
    drawSpace k (n + 1)
      = (drawSpace k n).biUnion
          (fun ds => (Finset.range (n + 1)).image (fun d => ds ++ [d])) := by
  rw [drawSpace, if_neg (by omega)]

theorem length_of_mem_drawSpace (k n : Nat) :
    ∀ ds ∈ drawSpace k n, ds.length = n - k := by
  induction n with
  | zero => intro ds hds; simp [drawSpace] at hds; simp [hds]
  | succ n ih =>
    intro ds hds
    by_cases h : n + 1 ≤ k
    · rw [drawSpace, if_pos h] at hds
      simp at hds
      simp [hds]
      omega
    · rw [drawSpace_succ_of_lt k n (by omega)] at hds
      rw [Finset.mem_biUnion] at hds
      obtain ⟨ds0, hds0, hmem⟩ := hds
      rw [Finset.mem_image] at hmem
      obtain ⟨d, _, rfl⟩ := hmem
      rw [List.length_append, ih ds0 hds0]
      simp
      omega

/-- Two random sources that agree on every invocation the loop will
make (call indices below `cl + (count + remaining - max count k)`)
drive the loop identically. -/
theorem foldl_sampleStep_congr (rng1 rng2 : Nat → Nat → Nat) (k L : Nat)
    (iter : List α) :
    ∀ (s : List α) (c cl : Nat),
      (∀ j b, j < cl + ((c + iter.length) - max c k) → rng1 j b = rng2 j b) →
      List.foldl (sampleStep rng1 k L) ⟨s, c, cl⟩ iter
        = List.foldl (sampleStep rng2 k L) ⟨s, c, cl⟩ iter := by
  induction iter with
  | nil => intro s c cl _; rfl
  | cons e iter ih =>
    intro s c cl hagree
    rw [List.foldl_cons, List.foldl_cons]
    by_cases hfill : c + 1 ≤ k
    · have h1 : sampleStep rng1 k L ⟨s, c, cl⟩ e = ⟨s ++ [e], c + 1, cl⟩ := by
        simp [sampleStep, hfill]
      have h2 : sampleStep rng2 k L ⟨s, c, cl⟩ e = ⟨s ++ [e], c + 1, cl⟩ := by
        simp [sampleStep, hfill]
      rw [h1, h2]
      refine ih (s ++ [e]) (c + 1) cl (fun j b hj => hagree j b ?_)
      rw [List.length_cons]
      omega
    · have hdraw : rng1 cl (c + 1) = rng2 cl (c + 1) := by
        refine hagree cl (c + 1) ?_
        rw [List.length_cons]
        omega
      have hdraw2 : rng2 cl (c + 1) = rng1 cl (c + 1) := hdraw.symm
      by_cases hidx : rng1 cl (c + 1) < k
      · have h1 : sampleStep rng1 k L ⟨s, c, cl⟩ e
            = ⟨s.set (L + rng1 cl (c + 1)) e, c + 1, cl + 1⟩ := by
          simp [sampleStep, hfill, hidx]
        have h2 : sampleStep rng2 k L ⟨s, c, cl⟩ e
            = ⟨s.set (L + rng1 cl (c + 1)) e, c + 1, cl + 1⟩ := by
          simp [sampleStep, hfill, hdraw2, hidx]
        rw [h1, h2]
        refine ih _ (c + 1) (cl + 1) (fun j b hj => hagree j b ?_)
        rw [List.length_cons]
        omega
      · have h1 : sampleStep rng1 k L ⟨s, c, cl⟩ e = ⟨s, c + 1, cl + 1⟩ := by
          simp [sampleStep, hfill, hidx]
        have h2 : sampleStep rng2 k L ⟨s, c, cl⟩ e = ⟨s, c + 1, cl + 1⟩ := by
          simp [sampleStep, hfill, hdraw2, hidx]
        rw [h1, h2]
        refine ih s (c + 1) (cl + 1) (fun j b hj => hagree j b ?_)
        rw [List.length_cons]
        omega

/-- A run over the source `0, ..., n-1` with all draws prescribed ends
in state `⟨reservoir, n, n - k⟩`. -/
theorem sample_range_state (k n : Nat) (rng : Nat → Nat → Nat) :
    List.foldl (sampleStep rng k 0) ⟨([] : List Nat), 0, 0⟩ (List.range n)
      = ⟨sample rng k (List.range n), n, n - k⟩ := by
  have h := foldl_sampleStep_master rng k 0 (List.range n) [] 0 0 (by simp)
  obtain ⟨h1, _, h3, _, _⟩ := h
  have hs : (List.foldl (sampleStep rng k 0) ⟨([] : List Nat), 0, 0⟩
      (List.range n)).samples = sample rng k (List.range n) := by
    simp [sample, sample_into]
  cases hfold : List.foldl (sampleStep rng k 0) ⟨([] : List Nat), 0, 0⟩
      (List.range n) with
  | mk s c cl =>
    rw [hfold] at hs h1 h3
    simp only at hs h1 h3
    rw [hs]
    rw [List.length_range] at h1 h3
    simp only [LoopState.mk.injEq]
    refine ⟨trivial, by omega, by omega⟩

/-- Undersized runs never draw: the sample of `0, ..., n-1` with
`n ≤ k` is the whole source. -/
theorem sample_range_of_le (k n : Nat) (rng : Nat → Nat → Nat)
    (h : n ≤ k) : sample rng k (List.range n) = List.range n := by
  have h0 := foldl_sampleStep_fill rng k 0 (List.range n) [] 0 0
    (by simp [h])
  simp [sample, sample_into, h0]

/-- Appending one more draw `d` and one more source element `n` to a
complete run replaces reservoir slot `d` by `n` when `d < k` and leaves
the reservoir alone otherwise: the last loop iteration in closed form. -/
theorem sample_range_snoc (k n : Nat) (hkn : k ≤ n) (ds : List Nat)
    (hlen : ds.length = n - k) (d : Nat) :
    sample (rngOfList (ds ++ [d])) k (List.range (n + 1))
      = (if d < k
          then (sample (rngOfList ds) k (List.range n)).set d n
          else sample (rngOfList ds) k (List.range n)) := by
  have hcongr : List.foldl (sampleStep (rngOfList (ds ++ [d])) k 0)
        ⟨([] : List Nat), 0, 0⟩ (List.range n)
      = List.foldl (sampleStep (rngOfList ds) k 0)
        ⟨([] : List Nat), 0, 0⟩ (List.range n) := by
    refine foldl_sampleStep_congr _ _ k 0 (List.range n) [] 0 0 ?_
    intro j b hj
    rw [List.length_range] at hj
    have hjlt : j < ds.length := by omega
    simp only [rngOfList]
    rw [List.getD_append _ _ _ _ hjlt]
  have hstate := sample_range_state k n (rngOfList ds)
  have hntop : ¬ (n + 1 ≤ k) := by omega
  have hdraw : rngOfList (ds ++ [d]) (n - k) (n + 1) = d := by
    simp only [rngOfList]
    rw [List.getD_append_right _ _ _ _ (by omega), hlen]
    simp
  have hsmp : sample (rngOfList (ds ++ [d])) k (List.range (n + 1))
      = (sampleStep (rngOfList (ds ++ [d])) k 0
          ⟨sample (rngOfList ds) k (List.range n), n, n - k⟩ n).samples := by
    simp only [sample, sample_into, List.length_nil, List.range_succ,
      List.foldl_append, List.foldl_cons, List.foldl_nil]
    rw [hcongr, hstate]
  rw [hsmp]
  by_cases hd : d < k
  · simp [sampleStep, hntop, hdraw, hd]
  · simp [sampleStep, hntop, hdraw, hd]

theorem list_range_toFinset (n : Nat) :
    (List.range n).toFinset = Finset.range n := by
  ext x
  simp

/-- Overwriting position `i` of a duplicate-free list exchanges the old
entry for the new value, at the level of element sets. -/
theorem toFinset_set_of_nodup (l : List Nat) (i : Nat) (x : Nat)
    (hi : i < l.length) (hl : l.Nodup) :
    (l.set i x).toFinset = insert x (l.toFinset.erase (l.getD i 0)) := by
  induction l generalizing i with
  | nil => simp at hi
  | cons a l ih =>
    rw [List.nodup_cons] at hl
    cases i with
    | zero =>
      have ha : a ∉ l.toFinset := by
        rw [List.mem_toFinset]
        exact hl.1
      simp only [List.set, List.getD_cons_zero, List.toFinset_cons]
      rw [Finset.erase_insert ha]
    | succ i =>
      have hi2 : i < l.length := by
        rw [List.length_cons] at hi
        omega
      have hane : a ≠ l.getD i 0 := by
        intro hcontra
        apply hl.1
        rw [List.getD_eq_getElem l 0 hi2] at hcontra
        rw [hcontra]
        exact List.getElem_mem hi2
      simp only [List.set, List.getD_cons_succ, List.toFinset_cons]
      rw [ih i hi2 hl.2, Finset.erase_insert_of_ne hane, Finset.Insert.comm]

/-- Invariants of a complete prescribed run over the source
`0, ..., n-1` with `k ≤ n`: the reservoir has exactly `k` pairwise
distinct entries, all drawn from the source. -/
theorem sample_range_invariant (k n : Nat) (hkn : k ≤ n) :
    ∀ ds ∈ drawSpace k n,
      (sample (rngOfList ds) k (List.range n)).length = k ∧
      (sample (rngOfList ds) k (List.range n)).Nodup ∧
      (∀ x ∈ sample (rngOfList ds) k (List.range n), x < n) := by
  induction n, hkn using Nat.le_induction with
  | base =>
    intro ds hds
    rw [drawSpace_of_le k k le_rfl] at hds
    rw [Finset.mem_singleton] at hds
    subst hds
    rw [sample_range_of_le k k _ le_rfl]
    exact ⟨by simp, List.nodup_range k, by simp⟩
  | succ n hkn ih =>
    intro ds hds
    rw [drawSpace_succ_of_lt k n hkn, Finset.mem_biUnion] at hds
    obtain ⟨ds0, hds0, hmem⟩ := hds
    rw [Finset.mem_image] at hmem
    obtain ⟨d, hd, rfl⟩ := hmem
    rw [Finset.mem_range] at hd
    obtain ⟨hlen0, hnd0, hmem0⟩ := ih ds0 hds0
    rw [sample_range_snoc k n hkn ds0 (length_of_mem_drawSpace k n ds0 hds0) d]
    by_cases hdk : d < k
    · rw [if_pos hdk]
      have hnotmem : n ∉ sample (rngOfList ds0) k (List.range n) := by
        intro hcontra
        have := hmem0 n hcontra
        omega
      refine ⟨by simp [hlen0], hnd0.set hnotmem, ?_⟩
      intro x hx
      rcases List.mem_or_eq_of_mem_set hx with h | h
      · have := hmem0 x h
        omega
      · omega
    · rw [if_neg hdk]
      refine ⟨hlen0, hnd0, ?_⟩
      intro x hx
      have := hmem0 x hx
      omega

/-- The element set of a prescribed run is a `k`-element subset of the
source's value set. -/
theorem sample_range_toFinset_mem (k n : Nat) (hkn : k ≤ n)
    (ds : List Nat) (hds : ds ∈ drawSpace k n) :
    (sample (rngOfList ds) k (List.range n)).toFinset
      ∈ Finset.powersetCard k (Finset.range n) := by
  obtain ⟨hlen, hnd, hmem⟩ := sample_range_invariant k n hkn ds hds
  rw [Finset.mem_powersetCard]
  constructor
  · intro x hx
    rw [List.mem_toFinset] at hx
    rw [Finset.mem_range]
    exact hmem x hx
  · rw [List.toFinset_card_of_nodup hnd, hlen]

/-- Counting the final draw when the new element `n` does not belong to
the target set `S`: only the `n + 1 - k` discarding draws can work, and
only if the reservoir already shows `S`. -/
theorem card_filter_step_not_mem (k n : Nat) (res : List Nat)
    (hlen : res.length = k) (hnd : res.Nodup) (_hmem : ∀ x ∈ res, x < n)
    (S : Finset Nat) (hS : n ∉ S) :
    ((Finset.range (n + 1)).filter
        (fun d => (if d < k then res.set d n else res).toFinset = S)).card
      = if res.toFinset = S then n + 1 - k else 0 := by
  have hset : ∀ d, d < k → (res.set d n).toFinset ≠ S := by
    intro d hd hcontra
    apply hS
    rw [← hcontra, toFinset_set_of_nodup res d n (by omega) hnd]
    exact Finset.mem_insert_self n _
  by_cases hres : res.toFinset = S
  · rw [if_pos hres]
    have hfe : (Finset.range (n + 1)).filter
        (fun d => (if d < k then res.set d n else res).toFinset = S)
        = Finset.Ico k (n + 1) := by
      ext d
      rw [Finset.mem_filter, Finset.mem_range, Finset.mem_Ico]
      constructor
      · rintro ⟨hd, hcond⟩
        refine ⟨?_, hd⟩
        by_contra hdk
        rw [if_pos (by omega)] at hcond
        exact hset d (by omega) hcond
      · rintro ⟨hkd, hd⟩
        refine ⟨hd, ?_⟩
        rw [if_neg (by omega)]
        exact hres
    rw [hfe, Nat.card_Ico]
  · rw [if_neg hres]
    rw [Finset.card_eq_zero, Finset.filter_eq_empty_iff]
    intro d _
    by_cases hd : d < k
    · rw [if_pos hd]
      exact hset d hd
    · rw [if_neg hd]
      exact hres

/-- Counting the final draw when the new element `n` does belong to the
target set `S`: the successful draws `d < k` correspond exactly to the
reservoir entries whose removal (in exchange for `n`) produces `S`. -/
theorem card_filter_step_mem (k n : Nat) (hkn : k ≤ n) (res : List Nat)
    (hlen : res.length = k) (hnd : res.Nodup) (hmem : ∀ x ∈ res, x < n)
    (S : Finset Nat) (hS : n ∈ S) :
    ((Finset.range (n + 1)).filter
        (fun d => (if d < k then res.set d n else res).toFinset = S)).card
      = (res.toFinset.filter
          (fun x => insert n (res.toFinset.erase x) = S)).card := by
  have hnres : n ∉ res.toFinset := by
    rw [List.mem_toFinset]
    intro hcontra
    have := hmem n hcontra
    omega
  refine Finset.card_bij (fun d _ => res.getD d 0) ?_ ?_ ?_
  · intro d hd
    rw [Finset.mem_filter, Finset.mem_range] at hd
    obtain ⟨_, hcond⟩ := hd
    have hdk : d < k := by
      by_contra hdk
      rw [if_neg hdk] at hcond
      rw [hcond] at hnres
      exact hnres hS
    rw [if_pos hdk] at hcond
    rw [Finset.mem_filter]
    refine ⟨?_, ?_⟩
    · show res.getD d 0 ∈ res.toFinset
      rw [List.mem_toFinset, List.getD_eq_getElem res 0 (by omega)]
      exact List.getElem_mem (by omega)
    · show insert n (res.toFinset.erase (res.getD d 0)) = S
      rw [← hcond, toFinset_set_of_nodup res d n (by omega) hnd]
  · intro d1 hd1 d2 hd2 heqpre
    have heq : res.getD d1 0 = res.getD d2 0 := heqpre
    rw [Finset.mem_filter, Finset.mem_range] at hd1 hd2
    have hdk1 : d1 < k := by
      by_contra hdk
      rw [if_neg hdk] at hd1
      rw [hd1.2] at hnres
      exact hnres hS
    have hdk2 : d2 < k := by
      by_contra hdk
      rw [if_neg hdk] at hd2
      rw [hd2.2] at hnres
      exact hnres hS
    have hdlt1 : d1 < res.length := by omega
    have hdlt2 : d2 < res.length := by omega
    rw [List.getD_eq_getElem res 0 hdlt1,
      List.getD_eq_getElem res 0 hdlt2] at heq
    exact (hnd.getElem_inj_iff).mp heq
  · intro x hx
    rw [Finset.mem_filter, List.mem_toFinset] at hx
    obtain ⟨hxres, hxcond⟩ := hx
    obtain ⟨d, hd, hdx⟩ := List.mem_iff_getElem.mp hxres
    refine ⟨d, ?_, ?_⟩
    · rw [Finset.mem_filter, Finset.mem_range]
      constructor
      · omega
      · rw [if_pos (by omega), toFinset_set_of_nodup res d n hd hnd,
          List.getD_eq_getElem res 0 hd, hdx]
        exact hxcond
    · show res.getD d 0 = x
      rw [List.getD_eq_getElem res 0 hd, hdx]

/-- Exchange count: over all `k`-element subsets `R` of the old value
set, the number of (entry, `R`) pairs for which trading that entry for
the new value `n` yields `S` is `n + 1 - k` — one for each way to pick
which element of `S` other than `n` is missing from `R`. -/
theorem sum_exchange_card (k n : Nat) (hkn : k ≤ n) (S : Finset Nat)
    (hS : n ∈ S) (hSsub : S ⊆ Finset.range (n + 1)) (hScard : S.card = k) :
    (∑ R ∈ Finset.powersetCard k (Finset.range n),
      (R.filter (fun x => insert n (R.erase x) = S)).card) = n + 1 - k := by
  have hk1 : 1 ≤ k := by
    rw [← hScard]
    exact Finset.card_pos.mpr ⟨n, hS⟩
  set T : Finset Nat := S.erase n with hT
  have hTsub : T ⊆ Finset.range n := by
    intro x hx
    rw [hT, Finset.mem_erase] at hx
    have := hSsub hx.2
    rw [Finset.mem_range] at this ⊢
    rcases hx with ⟨hne, _⟩
    omega
  have hTcard : T.card = k - 1 := by
    rw [hT, Finset.card_erase_of_mem hS, hScard]
  have hnT : n ∉ T := Finset.not_mem_erase n S
  have hSins : S = insert n T := by
    rw [hT, Finset.insert_erase hS]
  set A : Finset (Finset Nat)
      := (Finset.range n \ T).image (fun x => insert x T) with hA
  have hmemA : ∀ R, R ∈ A ↔ ∃ x, x ∈ Finset.range n ∧ x ∉ T ∧ R = insert x T := by
    intro R
    rw [hA, Finset.mem_image]
    constructor
    · rintro ⟨x, hx, rfl⟩
      rw [Finset.mem_sdiff] at hx
      exact ⟨x, hx.1, hx.2, rfl⟩
    · rintro ⟨x, hx1, hx2, rfl⟩
      exact ⟨x, Finset.mem_sdiff.mpr ⟨hx1, hx2⟩, rfl⟩
  have hcount : ∀ R ∈ Finset.powersetCard k (Finset.range n),
      (R.filter (fun x => insert n (R.erase x) = S)).card
        = if R ∈ A then 1 else 0 := by
    intro R hR
    rw [Finset.mem_powersetCard] at hR
    obtain ⟨hRsub, hRcard⟩ := hR
    have hnR : n ∉ R := by
      intro hcontra
      have := hRsub hcontra
      rw [Finset.mem_range] at this
      omega
    have hcond : ∀ x ∈ R, (insert n (R.erase x) = S ↔ R.erase x = T) := by
      intro x hx
      constructor
      · intro h
        have h2 := congrArg (fun B => B.erase n) h
        simp only at h2
        rw [Finset.erase_insert
            (fun hc => hnR (Finset.mem_of_mem_erase hc)), ← hT] at h2
        exact h2
      · intro h
        rw [h, ← hSins]
    rw [Finset.filter_congr hcond]
    by_cases hRA : R ∈ A
    · rw [if_pos hRA]
      obtain ⟨x0, hx0n, hx0T, rfl⟩ := (hmemA R).mp hRA
      have hfe : (insert x0 T).filter (fun x => (insert x0 T).erase x = T)
          = {x0} := by
        ext y
        rw [Finset.mem_filter, Finset.mem_singleton]
        constructor
        · rintro ⟨hy, herase⟩
          rcases Finset.mem_insert.mp hy with h | h
          · exact h
          · exfalso
            have : y ∉ (insert x0 T).erase y := Finset.not_mem_erase y _
            rw [herase] at this
            exact this h
        · intro hyx
          rw [hyx]
          exact ⟨Finset.mem_insert_self x0 T, Finset.erase_insert hx0T⟩
      rw [hfe, Finset.card_singleton]
    · rw [if_neg hRA]
      rw [Finset.card_eq_zero, Finset.filter_eq_empty_iff]
      intro x hx hcontra
      apply hRA
      rw [hmemA]
      refine ⟨x, hRsub hx, ?_, ?_⟩
      · rw [← hcontra]
        exact Finset.not_mem_erase x R
      · rw [← hcontra, Finset.insert_erase hx]
  rw [Finset.sum_congr rfl hcount]
  have hArw : ∀ R ∈ Finset.powersetCard k (Finset.range n),
      (if R ∈ A then (1 : Nat) else 0) = if R ∈ A then 1 else 0 := fun _ _ => rfl
  have hAsub : A ⊆ Finset.powersetCard k (Finset.range n) := by
    intro R hR
    obtain ⟨x, hx1, hx2, rfl⟩ := (hmemA R).mp hR
    rw [Finset.mem_powersetCard]
    constructor
    · intro y hy
      rcases Finset.mem_insert.mp hy with h | h
      · rw [h]; exact hx1
      · exact hTsub h
    · rw [Finset.card_insert_of_not_mem hx2, hTcard]
      omega
  rw [Finset.sum_ite_mem]
  have hinter : Finset.powersetCard k (Finset.range n) ∩ A = A := by
    rw [Finset.inter_eq_right]
    exact hAsub
  rw [hinter, Finset.sum_const, smul_eq_mul, mul_one]
  have hAcard : A.card = n + 1 - k := by
    rw [hA, Finset.card_image_of_injOn, Finset.card_sdiff hTsub,
      Finset.card_range, hTcard]
    · omega
    · intro x hx y hy hxypre
      have hxy : insert x T = insert y T := hxypre
      rw [Finset.coe_sdiff, Set.mem_diff] at hx hy
      have hxT : x ∉ T := fun hc => hx.2 hc
      have hyT : y ∉ T := fun hc => hy.2 hc
      have : x ∈ insert y T := by
        rw [← hxy]
        exact Finset.mem_insert_self x T
      rcases Finset.mem_insert.mp this with h | h
      · exact h
      · exact absurd h hxT
  exact hAcard

/-- The law of the reservoir: for `k ≤ n`, every `k`-element subset `S`
of the source value set is produced by exactly `(n - k)!` of the
equally likely draw sequences, uniformly in `S`. -/
theorem drawSpace_filter_card (k n : Nat) (hkn : k ≤ n) :
    ∀ S ∈ Finset.powersetCard k (Finset.range n),
      ((drawSpace k n).filter
          (fun ds => (sample (rngOfList ds) k (List.range n)).toFinset = S)).card
        = (n - k).factorial := by
  induction n, hkn using Nat.le_induction with
  | base =>
    intro S hS
    rw [Finset.mem_powersetCard] at hS
    have hSeq : S = Finset.range k := by
      refine Finset.eq_of_subset_of_card_le hS.1 ?_
      rw [Finset.card_range, hS.2]
    subst hSeq
    rw [drawSpace_of_le k k le_rfl, Finset.filter_singleton, if_pos]
    · rw [Finset.card_singleton]
      simp
    · rw [sample_range_of_le k k _ le_rfl, list_range_toFinset]
  | succ n hkn ih =>
    intro S hS
    rw [Finset.mem_powersetCard] at hS
    obtain ⟨hSsub, hScard⟩ := hS
    have hdisj : ∀ ds1 ∈ drawSpace k n, ∀ ds2 ∈ drawSpace k n, ds1 ≠ ds2 →
        Disjoint
          (((Finset.range (n + 1)).image (fun d => ds1 ++ [d])).filter
            (fun ds => (sample (rngOfList ds) k (List.range (n + 1))).toFinset = S))
          (((Finset.range (n + 1)).image (fun d => ds2 ++ [d])).filter
            (fun ds => (sample (rngOfList ds) k (List.range (n + 1))).toFinset = S)) := by
      intro ds1 h1 ds2 h2 hne
      rw [Finset.disjoint_left]
      intro z hz1 hz2
      rw [Finset.mem_filter, Finset.mem_image] at hz1 hz2
      obtain ⟨⟨d1, _, hzd1⟩, _⟩ := hz1
      obtain ⟨⟨d2, _, hzd2⟩, _⟩ := hz2
      have hz1e : ds1 ++ [d1] = z := hzd1
      have hz2e : ds2 ++ [d2] = z := hzd2
      apply hne
      have hlen12 : ds1.length = ds2.length := by
        rw [length_of_mem_drawSpace k n ds1 h1,
          length_of_mem_drawSpace k n ds2 h2]
      exact (List.append_inj (hz1e.trans hz2e.symm) hlen12).1
    rw [drawSpace_succ_of_lt k n hkn, Finset.filter_biUnion,
      Finset.card_biUnion hdisj]
    have hinner : ∀ ds ∈ drawSpace k n,
        (((Finset.range (n + 1)).image (fun d => ds ++ [d])).filter
            (fun dsz =>
              (sample (rngOfList dsz) k (List.range (n + 1))).toFinset = S)).card
          = ((Finset.range (n + 1)).filter
              (fun d => (if d < k
                  then (sample (rngOfList ds) k (List.range n)).set d n
                  else sample (rngOfList ds) k (List.range n)).toFinset
                = S)).card := by
      intro ds hds
      rw [Finset.filter_image]
      have hinj : Set.InjOn (fun d => ds ++ [d])
          ((Finset.range (n + 1)).filter
            (fun d =>
              (sample (rngOfList (ds ++ [d])) k
                (List.range (n + 1))).toFinset = S)) := by
        intro d1 _ d2 _ hpre
        have h12 : ds ++ [d1] = ds ++ [d2] := hpre
        have h3 := (List.append_inj h12 rfl).2
        simpa using h3
      rw [Finset.card_image_of_injOn hinj]
      apply Finset.card_nbij (fun d => d)
      · intro d hd
        rw [Finset.mem_filter] at hd ⊢
        refine ⟨hd.1, ?_⟩
        rw [← sample_range_snoc k n hkn ds
          (length_of_mem_drawSpace k n ds hds) d]
        exact hd.2
      · intro d1 _ d2 _ h
        exact h
      · intro d hd
        rw [Finset.coe_filter] at hd ⊢
        refine ⟨d, ?_, rfl⟩
        obtain ⟨hd1, hd2⟩ := hd
        refine ⟨hd1, ?_⟩
        rw [sample_range_snoc k n hkn ds
          (length_of_mem_drawSpace k n ds hds) d]
        exact hd2
    rw [Finset.sum_congr rfl hinner]
    by_cases hnS : n ∈ S
    · have hsummand : ∀ ds ∈ drawSpace k n,
          ((Finset.range (n + 1)).filter
              (fun d => (if d < k
                  then (sample (rngOfList ds) k (List.range n)).set d n
                  else sample (rngOfList ds) k (List.range n)).toFinset
                = S)).card
            = ((sample (rngOfList ds) k (List.range n)).toFinset.filter
                (fun x => insert n
                  ((sample (rngOfList ds) k
                    (List.range n)).toFinset.erase x) = S)).card := by
        intro ds hds
        obtain ⟨hlen, hnd, hmem⟩ := sample_range_invariant k n hkn ds hds
        exact card_filter_step_mem k n hkn _ hlen hnd hmem S hnS
      rw [Finset.sum_congr rfl hsummand]
      have hfib := Finset.sum_fiberwise_of_maps_to'
        (fun ds hds => sample_range_toFinset_mem k n hkn ds hds)
        (fun R => (R.filter (fun x => insert n (R.erase x) = S)).card)
      rw [← hfib]
      have hconst : ∀ R ∈ Finset.powersetCard k (Finset.range n),
          (∑ ds ∈ (drawSpace k n).filter
              (fun ds =>
                (sample (rngOfList ds) k (List.range n)).toFinset = R),
            (R.filter (fun x => insert n (R.erase x) = S)).card)
            = (n - k).factorial
                * (R.filter (fun x => insert n (R.erase x) = S)).card := by
        intro R hR
        rw [Finset.sum_const, smul_eq_mul, ih R hR]
      rw [Finset.sum_congr rfl hconst, ← Finset.mul_sum,
        sum_exchange_card k n hkn S hnS hSsub hScard]
      have hrw : n + 1 - k = (n - k) + 1 := by omega
      rw [hrw, Nat.factorial_succ]
      ring
    · have hSsub2 : S ⊆ Finset.range n := by
        intro x hx
        have hx2 := hSsub hx
        rw [Finset.mem_range] at hx2 ⊢
        have hxn : x ≠ n := fun hc => hnS (hc ▸ hx)
        omega
      have hsummand : ∀ ds ∈ drawSpace k n,
          ((Finset.range (n + 1)).filter
              (fun d => (if d < k
                  then (sample (rngOfList ds) k (List.range n)).set d n
                  else sample (rngOfList ds) k (List.range n)).toFinset
                = S)).card
            = if (sample (rngOfList ds) k (List.range n)).toFinset = S
                then n + 1 - k else 0 := by
        intro ds hds
        obtain ⟨hlen, hnd, hmem⟩ := sample_range_invariant k n hkn ds hds
        exact card_filter_step_not_mem k n _ hlen hnd hmem S hnS
      rw [Finset.sum_congr rfl hsummand, ← Finset.sum_filter,
        Finset.sum_const, smul_eq_mul,
        ih S (Finset.mem_powersetCard.mpr ⟨hSsub2, hScard⟩)]
      have hrw : n + 1 - k = (n - k) + 1 := by omega
      rw [hrw, Nat.factorial_succ]
      ring

/-- Total number of draw sequences: the `(n - k)!` sequences per
subset, over all `choose n k` subsets. -/
theorem drawSpace_card (k n : Nat) (hkn : k ≤ n) :
    (drawSpace k n).card = n.choose k * (n - k).factorial := by
  rw [Finset.card_eq_sum_card_fiberwise
    (fun ds hds => sample_range_toFinset_mem k n hkn ds hds)]
  rw [Finset.sum_congr rfl (drawSpace_filter_card k n hkn),
    Finset.sum_const, smul_eq_mul, Finset.card_powersetCard,
    Finset.card_range]

/-- Number of `k`-element subsets of `0, ..., n-1` containing a given
element `i`: `choose (n-1) (k-1)`. -/
theorem card_powersetCard_filter_mem (n k i : Nat) (hi : i < n)
    (hk : 1 ≤ k) :
    ((Finset.powersetCard k (Finset.range n)).filter
        (fun S => i ∈ S)).card
      = (n - 1).choose (k - 1) := by
  have htarget : (Finset.powersetCard (k - 1)
      ((Finset.range n).erase i)).card = (n - 1).choose (k - 1) := by
    rw [Finset.card_powersetCard, Finset.card_erase_of_mem
      (Finset.mem_range.mpr hi), Finset.card_range]
  rw [← htarget]
  refine Finset.card_bij (fun S _ => S.erase i) ?_ ?_ ?_
  · intro S hS
    rw [Finset.mem_filter, Finset.mem_powersetCard] at hS
    obtain ⟨⟨hSsub, hScard⟩, hiS⟩ := hS
    rw [Finset.mem_powersetCard]
    constructor
    · intro x hx
      rw [Finset.mem_erase] at hx ⊢
      exact ⟨hx.1, hSsub hx.2⟩
    · rw [Finset.card_erase_of_mem hiS, hScard]
  · intro S1 hS1 S2 hS2 hpre
    have heq : S1.erase i = S2.erase i := hpre
    rw [Finset.mem_filter] at hS1 hS2
    rw [← Finset.insert_erase hS1.2, heq, Finset.insert_erase hS2.2]
  · intro B hB
    rw [Finset.mem_powersetCard] at hB
    obtain ⟨hBsub, hBcard⟩ := hB
    have hiB : i ∉ B := by
      intro hcontra
      have := hBsub hcontra
      rw [Finset.mem_erase] at this
      exact this.1 rfl
    refine ⟨insert i B, ?_, ?_⟩
    · rw [Finset.mem_filter, Finset.mem_powersetCard]
      refine ⟨⟨?_, ?_⟩, Finset.mem_insert_self i B⟩
      · intro x hx
        rcases Finset.mem_insert.mp hx with h | h
        · rw [h]
          exact Finset.mem_range.mpr hi
        · exact Finset.mem_of_mem_erase (hBsub h)
      · rw [Finset.card_insert_of_not_mem hiB, hBcard]
        omega
    · show (insert i B).erase i = B
      exact Finset.erase_insert hiB

/-- Per-element inclusion count: each source element lies in the final
reservoir for exactly the fraction `k / n` of all draw sequences,
stated multiplicatively. -/
theorem drawSpace_mem_filter_card (k n : Nat) (hkn : k ≤ n) (i : Nat)
    (hi : i < n) :
    n * ((drawSpace k n).filter
        (fun ds => i ∈ sample (rngOfList ds) k (List.range n))).card
      = k * (drawSpace k n).card := by
  by_cases hk : k = 0
  · subst hk
    have hempty : (drawSpace 0 n).filter
        (fun ds => i ∈ sample (rngOfList ds) 0 (List.range n)) = ∅ := by
      rw [Finset.filter_eq_empty_iff]
      intro ds _ hcontra
      have hlen := (sample_into_master [] (rngOfList ds) 0
        (List.range n)).2.1
      simp only [List.length_nil, Nat.zero_add, Nat.zero_min] at hlen
      have : sample (rngOfList ds) 0 (List.range n) = [] := by
        apply List.eq_nil_of_length_eq_zero
        simpa [sample] using hlen
      rw [this] at hcontra
      cases hcontra
    rw [hempty]
    simp
  · have hk1 : 1 ≤ k := by omega
    have hmaps : ∀ ds ∈ (drawSpace k n).filter
        (fun ds => i ∈ sample (rngOfList ds) k (List.range n)),
        (sample (rngOfList ds) k (List.range n)).toFinset
          ∈ Finset.powersetCard k (Finset.range n) := by
      intro ds hds
      exact sample_range_toFinset_mem k n hkn ds (Finset.mem_of_mem_filter ds hds)
    rw [Finset.card_eq_sum_card_fiberwise hmaps]
    have hfiber : ∀ S ∈ Finset.powersetCard k (Finset.range n),
        (((drawSpace k n).filter
            (fun ds => i ∈ sample (rngOfList ds) k (List.range n))).filter
          (fun ds =>
            (sample (rngOfList ds) k (List.range n)).toFinset = S)).card
          = if i ∈ S then (n - k).factorial else 0 := by
      intro S hS
      by_cases hiS : i ∈ S
      · rw [if_pos hiS, ← drawSpace_filter_card k n hkn S hS]
        congr 1
        rw [Finset.filter_filter]
        apply Finset.filter_congr
        intro ds _
        constructor
        · rintro ⟨_, h⟩
          exact h
        · intro h
          refine ⟨?_, h⟩
          rw [← List.mem_toFinset, h]
          exact hiS
      · rw [if_neg hiS, Finset.card_eq_zero, Finset.filter_eq_empty_iff]
        intro ds hds hcontra
        rw [Finset.mem_filter] at hds
        apply hiS
        rw [← hcontra, List.mem_toFinset]
        exact hds.2
    rw [Finset.sum_congr rfl hfiber, ← Finset.sum_filter,
      Finset.sum_const, smul_eq_mul,
      card_powersetCard_filter_mem n k i hi hk1,
      drawSpace_card k n hkn]
    have hm : n - 1 + 1 = n := by omega
    have hj : k - 1 + 1 = k := by omega
    have hch := Nat.succ_mul_choose_eq (n - 1) (k - 1)
    simp only [Nat.succ_eq_add_one] at hch
    rw [hm, hj] at hch
    rw [← Nat.mul_assoc, hch]
    ring

/-- C2.  Quantifying over the outputs of a random source that is
uniform on each requested range `[0, count)` — i.e. over the equally
likely draw sequences of `drawSpace` — for a source of length
`n ≥ sample_size`: the joint distribution of the reservoir's element
set over all size-`sample_size` subsets of the source is uniform (every
two subsets are hit by equally many draw sequences), and each source
element is included in the final reservoir with probability
`sample_size / n` (stated multiplicatively over counts). -/
theorem claim_C2_uniform_reservoir (n sample_size : Nat)
    (hkn : sample_size ≤ n) :
    (∀ S ∈ Finset.powersetCard sample_size (Finset.range n),
      ∀ T ∈ Finset.powersetCard sample_size (Finset.range n),
        ((drawSpace sample_size n).filter
            (fun ds => (sample (rngOfList ds) sample_size
              (List.range n)).toFinset = S)).card
          = ((drawSpace sample_size n).filter
              (fun ds => (sample (rngOfList ds) sample_size
                (List.range n)).toFinset = T)).card) ∧
    (∀ i, i < n →
      n * ((drawSpace sample_size n).filter
          (fun ds => i ∈ sample (rngOfList ds) sample_size
            (List.range n))).card
        = sample_size * (drawSpace sample_size n).card) := by
  constructor
  · intro S hS T hT
    rw [drawSpace_filter_card sample_size n hkn S hS,
      drawSpace_filter_card sample_size n hkn T hT]
  · intro i hi
    exact drawSpace_mem_filter_card sample_size n hkn i hi

/-- C2 witness: source `0, 1` with `sample_size = 1`: the two singleton
subsets are equally likely, and element `0` is kept in half the runs. -/
theorem claim_C2_witness :
    ((drawSpace 1 2).filter
        (fun ds => (sample (rngOfList ds) 1 (List.range 2)).toFinset
          = ({0} : Finset Nat))).card
      = ((drawSpace 1 2).filter
          (fun ds => (sample (rngOfList ds) 1 (List.range 2)).toFinset
            = ({1} : Finset Nat))).card ∧
    2 * ((drawSpace 1 2).filter
        (fun ds => 0 ∈ sample (rngOfList ds) 1 (List.range 2))).card
      = 1 * (drawSpace 1 2).card :=
  ⟨(claim_C2_uniform_reservoir 2 1 (by decide)).1 {0} (by decide)
      {1} (by decide),
   (claim_C2_uniform_reservoir 2 1 (by decide)).2 0 (by decide)⟩

end Reservoir
